import Mathlib

set_option maxHeartbeats 1000000

/-!
Verification of the Intcode interpreter of advent-of-code-2019.

The definitions below are a shallow embedding of `src/day11/day11.py`
(the most complete revision of the interpreter: opcodes 1-9 and 99,
position / immediate / relative parameter modes, growable memory,
suspension on missing input and optional yield after output) and of
`src/day2/day2a.py` (the first revision, opcodes 1, 2 and 99 only).

Python list accesses are modelled exactly, including the silent
wrap-around of negative indices (`l[-1]` is the last element) and the
IndexError raised by an out-of-range plain index; a raised IndexError,
AssertionError or unpacking error is modelled as the result `none` /
`.error`.  Queues are modelled as lists (head = next element to `get`,
`put` appends at the tail); the interactive-stdin fallback of
`ReadInput.exec` / `WriteOutput.exec` (taken only when a stream is
`None`) is out of scope: streams are always bound, as in the day11
driver that constructs `MachineState(..., Queue(), Queue(), ...)`.
-/

/-- Python list read `l[i]`: a negative index wraps around once from the
end of the list; an index that is still out of range raises IndexError,
modelled as `none`. -/
def pyGet (l : List Int) (i : Int) : Option Int :=
  if 0 ≤ i then l.get? i.toNat
  else if 0 ≤ (l.length : Int) + i then l.get? ((l.length : Int) + i).toNat
  else none

/-- Python list item assignment `l[i] = v`, with the same index rules as
`pyGet`; IndexError is modelled as `none`. -/
def pySet (l : List Int) (i : Int) (v : Int) : Option (List Int) :=
  if 0 ≤ i then
    if i < (l.length : Int) then some (l.set i.toNat v) else none
  else if 0 ≤ (l.length : Int) + i then
    some (l.set ((l.length : Int) + i).toNat v)
  else none

/-- Clamp one bound of a Python slice to the list length: negative
bounds count from the end (clamped below at 0), bounds beyond the end
are clamped to the length. -/
def pyBound (len : Nat) (i : Int) : Nat :=
  if i < 0 then ((len : Int) + i).toNat else min i.toNat len

/-- Python slice `l[a:b]` (never raises). -/
def pySlice (l : List Int) (a b : Int) : List Int :=
  (l.take (pyBound l.length b)).drop (pyBound l.length a)

/-- The state of one day11 machine: `MachineState.__init__` sets
`pc = 0`, the given memory and streams, `relative_base = 0`, and the
`yield_on_output` policy flag. -/
structure MachineState where
  pc : Int
  memory : List Int
  relativeBase : Int
  inputStream : List Int
  outputStream : List Int
  yieldOnOutput : Bool
  deriving Repr, DecidableEq

/-- Outcome of executing instructions: `ok` is normal fall-through (used
by `run` for exhausted fuel), the other constructors model the four
exceptions of day11.py (`WaitingForInputException`,
`YieldAfterOutputException`, `HaltException` carrying `memory[0]`, the
unknown-opcode `Exception` carrying the raw word) and `error` models an
uncaught Python runtime error (IndexError / AssertionError). -/
inductive ExecResult where
  | ok (s : MachineState)
  | waitingForInput (s : MachineState)
  | yieldAfterOutput (s : MachineState)
  | halted (s : MachineState) (exitValue : Int)
  | decodeFault (s : MachineState) (word : Int)
  | error
  deriving Repr, DecidableEq

/-- The memory-extension statement of `read_registers` (day11.py lines
73-75): when the address is at or past the end of memory, append
`(mem_addr + 1) - len(memory)` zero cells. -/
def growMem (memAddr : Int) (mem : List Int) : List Int :=
  if (mem.length : Int) ≤ memAddr then
    mem ++ List.replicate (memAddr + 1 - (mem.length : Int)).toNat 0
  else mem

/-- One iteration of the loop in `Instruction.read_registers`
(day11.py lines 57-77) for a single raw register value `r` whose mode
digit is `currMode`: immediate mode passes `r` through; position mode
uses `r` as the address, relative mode uses `relativeBase + r` and also
overwrites the stored register value with that address; a mode digit
other than 0, 1, 2 fails the `assert` (modelled `none`).  A non-immediate
access first extends memory via `growMem`, then reads the operation
value.  Returns (stored register value, operation value, new memory). -/
def resolveOne (relativeBase currMode r : Int) (mem : List Int) :
    Option (Int × Int × List Int) :=
  if currMode = 1 then
    some (r, r, mem)
  else
    match (if currMode = 0 then some r
           else if currMode = 2 then some (relativeBase + r)
           else none) with
    | none => none
    | some memAddr =>
      match pyGet (growMem memAddr mem) memAddr with
      | none => none
      | some v => some (if currMode = 2 then memAddr else r, v, growMem memAddr mem)

/-- The loop of `Instruction.read_registers` over all raw register
values: the mode digits are peeled off `modeCopy` least-significant
first (`mode_copy % 10`, `mode_copy //= 10`).  Returns (final register
values, operation values, final memory). -/
def resolveParams (relativeBase : Int) :
    Int → List Int → List Int → Option (List Int × List Int × List Int)
  | _, [], mem => some ([], [], mem)
  | modeCopy, r :: rest, mem =>
    match resolveOne relativeBase (modeCopy % 10) r mem with
    | none => none
    | some (reg, v, mem₁) =>
      match resolveParams relativeBase (modeCopy / 10) rest mem₁ with
      | none => none
      | some (regs, ops, mem₂) => some (reg :: regs, v :: ops, mem₂)

/-- `Instruction.read_registers` (day11.py lines 54-79): slice the raw
register values out of memory at the (already advanced) program
counter, resolve them, and advance the program counter by the declared
parameter count. -/
def readRegisters (paramCount : Nat) (mode : Int) (s : MachineState) :
    Option (List Int × List Int × MachineState) :=
  let registerValues := pySlice s.memory s.pc (s.pc + (paramCount : Int))
  match resolveParams s.relativeBase mode registerValues s.memory with
  | none => none
  | some (regs, ops, mem') =>
    some (regs, ops, { s with memory := mem', pc := s.pc + (paramCount : Int) })

/-- Declared parameter count per opcode (`_param_count` of each
`Instruction` subclass); `none` for an opcode absent from
`read_from_instruction_table`'s dispatch chain (lines 190-211). -/
def paramCount (opcode : Int) : Option Nat :=
  if opcode = 1 then some 3
  else if opcode = 2 then some 3
  else if opcode = 3 then some 1
  else if opcode = 4 then some 1
  else if opcode = 5 then some 2
  else if opcode = 6 then some 2
  else if opcode = 7 then some 3
  else if opcode = 8 then some 3
  else if opcode = 9 then some 1
  else if opcode = 99 then some 0
  else none

/-- The Python statement `state.memory[dst] = w` shared by the exec
methods of Add, Multiply, ReadInput, LessThan and Equals. -/
def writeMem (dst w : Int) (s : MachineState) : ExecResult :=
  match pySet s.memory dst w with
  | some mem => .ok { s with memory := mem }
  | none => .error

/-- The `exec` method of the dispatched instruction, given the resolved
register values and operation values (day11.py lines 82-180).  Only
opcodes for which `paramCount` is `some` are ever passed in by `step`. -/
def execInstr (opcode : Int) (regs ops : List Int) (s : MachineState) :
    ExecResult :=
  if opcode = 1 then
    match regs.get? 2, ops.get? 0, ops.get? 1 with
    | some dst, some a, some b => writeMem dst (a + b) s
    | _, _, _ => .error
  else if opcode = 2 then
    match regs.get? 2, ops.get? 0, ops.get? 1 with
    | some dst, some a, some b => writeMem dst (a * b) s
    | _, _, _ => .error
  else if opcode = 3 then
    if s.inputStream.isEmpty then
      .waitingForInput { s with pc := s.pc - 2 }
    else
      match regs.get? 0, s.inputStream with
      | some dst, v :: rest => writeMem dst v { s with inputStream := rest }
      | _, _ => .error
  else if opcode = 4 then
    match ops.get? 0 with
    | some v =>
      if s.yieldOnOutput then
        .yieldAfterOutput { s with outputStream := s.outputStream ++ [v] }
      else .ok { s with outputStream := s.outputStream ++ [v] }
    | none => .error
  else if opcode = 5 then
    match ops.get? 0, ops.get? 1 with
    | some a, some b => .ok (if a ≠ 0 then { s with pc := b } else s)
    | _, _ => .error
  else if opcode = 6 then
    match ops.get? 0, ops.get? 1 with
    | some a, some b => .ok (if a = 0 then { s with pc := b } else s)
    | _, _ => .error
  else if opcode = 7 then
    match regs.get? 2, ops.get? 0, ops.get? 1 with
    | some dst, some a, some b => writeMem dst (if a < b then 1 else 0) s
    | _, _, _ => .error
  else if opcode = 8 then
    match regs.get? 2, ops.get? 0, ops.get? 1 with
    | some dst, some a, some b => writeMem dst (if a = b then 1 else 0) s
    | _, _, _ => .error
  else if opcode = 9 then
    match ops.get? 0 with
    | some k => .ok { s with relativeBase := s.relativeBase + k }
    | none => .error
  else if opcode = 99 then
    match pyGet s.memory 0 with
    | some v => .halted s v
    | none => .error
  else .error

/-- One fetch-decode-execute cycle of `exec_program`: fetch the raw word
at the program counter and advance it (`read_from_instruction_table`,
day11.py lines 183-188), decode `opcode = word % 100` and
`mode = word // 100`, fail with the unknown-instruction exception when
the opcode is not in the dispatch chain, otherwise read the registers
and execute. -/
def step (s : MachineState) : ExecResult :=
  match pyGet s.memory s.pc with
  | none => .error
  | some w =>
    match paramCount (w % 100) with
    | none => .decodeFault { s with pc := s.pc + 1 } w
    | some n =>
      match readRegisters n (w / 100) { s with pc := s.pc + 1 } with
      | none => .error
      | some (regs, ops, s₂) => execInstr (w % 100) regs ops s₂

/-- `exec_program` (day11.py lines 214-219): loop `step` until an
exception escapes; the fuel bound is a proof artefact, `.ok` reports
the current state when it is exhausted. -/
def run : Nat → MachineState → ExecResult
  | 0, s => .ok s
  | fuel + 1, s =>
    match step s with
    | .ok s₁ => run fuel s₁
    | r => r

/-- The driver pattern of `SpaceShipGrid.run_program`: whenever
`exec_program` raises `YieldAfterOutputException` it is simply called
again on the same machine state, so resuming after each output pause
just keeps stepping. -/
def runThroughYields : Nat → MachineState → ExecResult
  | 0, s => .ok s
  | fuel + 1, s =>
    match step s with
    | .ok s₁ => runThroughYields fuel s₁
    | .yieldAfterOutput s₁ => runThroughYields fuel s₁
    | r => r

/-- A freshly constructed `MachineState` over a program and bound
input/output queues. -/
def initState (program inputs : List Int) (yieldOnOutput : Bool) :
    MachineState :=
  { pc := 0, memory := program, relativeBase := 0, inputStream := inputs,
    outputStream := [], yieldOnOutput := yieldOnOutput }

/-- Replace a machine's pending input queue. -/
def setInput (ins : List Int) (s : MachineState) : MachineState :=
  { s with inputStream := ins }

/-- Append further values at the tail of a machine's input queue
(`input_stream.put`). -/
def appendInput (ext : List Int) (s : MachineState) : MachineState :=
  { s with inputStream := s.inputStream ++ ext }

/-- Set a machine's pause-after-every-output policy flag. -/
def setYield (b : Bool) (s : MachineState) : MachineState :=
  { s with yieldOnOutput := b }

/-- Map a function over the machine state carried by a result. -/
def mapResultState (f : MachineState → MachineState) : ExecResult → ExecResult
  | .ok s => .ok (f s)
  | .waitingForInput s => .waitingForInput (f s)
  | .yieldAfterOutput s => .yieldAfterOutput (f s)
  | .halted s v => .halted (f s) v
  | .decodeFault s w => .decodeFault (f s) w
  | .error => .error

/-- Turn an output pause into plain fall-through; other results are
unchanged. -/
def yieldToOk : ExecResult → ExecResult
  | .yieldAfterOutput s => .ok s
  | r => r

/-- The ordered output sequence recorded in a result's machine state. -/
def resultOutputs : ExecResult → Option (List Int)
  | .ok s => some s.outputStream
  | .waitingForInput s => some s.outputStream
  | .yieldAfterOutput s => some s.outputStream
  | .halted s _ => some s.outputStream
  | .decodeFault s _ => some s.outputStream
  | .error => none

/-- The i-th least-significant base-10 digit of the mode field, the
spec's formula `(word / 100) / 10^i % 10` applied to `m = word / 100`. -/
def nthDigit (m : Int) (i : Nat) : Int := m / (10 ^ i : Int) % 10

/-- The effective address of a non-immediate parameter: the raw value
in position mode (digit 0), `relative_base + raw` in relative mode
(digit 2). -/
def resolvedAddr (relativeBase d r : Int) : Int :=
  if d = 0 then r else relativeBase + r

/-- The register-resolution loop re-stated with every parameter's mode
digit taken independently by position (digit of parameter `i` is
`d (i₀ + i)`), for comparison with the source's sequential peeling. -/
def resolveParamsDigits (relativeBase : Int) (d : Nat → Int) :
    Nat → List Int → List Int → Option (List Int × List Int × List Int)
  | _, [], mem => some ([], [], mem)
  | i, r :: rest, mem =>
    match resolveOne relativeBase (d i) r mem with
    | none => none
    | some (reg, v, mem₁) =>
      match resolveParamsDigits relativeBase d (i + 1) rest mem₁ with
      | none => none
      | some (regs, ops, mem₂) => some (reg :: regs, v :: ops, mem₂)

/-- The loop body of `exec_program` in day2a.py (lines 16-28): given the
current instruction (already decoded), the parameter position `pc` and
the memory, perform add/multiply steps until opcode 99; a raw value
outside {1, 2, 99} fails the `Opcode(...)` conversion (ValueError,
modelled `none`), as does any IndexError or a short slice unpacking. -/
def day2Loop : Nat → Int → Int → List Int → Option (List Int)
  | 0, _, _, _ => none
  | fuel + 1, inst, pc, memory =>
    if inst = 99 then some memory
    else
      match pySlice memory pc (pc + 3) with
      | [r1, r2, outAddr] =>
        match pyGet memory r1, pyGet memory r2 with
        | some v1, some v2 =>
          let write :=
            if inst = 1 then some (v1 + v2)
            else if inst = 2 then some (v1 * v2)
            else none
          match write with
          | none => none
          | some w =>
            match pySet memory outAddr w with
            | none => none
            | some memory₁ =>
              match pyGet memory₁ (pc + 3) with
              | none => none
              | some nextInst =>
                if nextInst = 1 ∨ nextInst = 2 ∨ nextInst = 99 then
                  day2Loop fuel nextInst (pc + 4) memory₁
                else none
        | _, _ => none
      | _ => none

/-- `exec_program` of day2a.py (lines 12-30): decode the opcode at
address 0 (ValueError on anything outside {1, 2, 99}), then run the
loop with `pc = 1`; returns the final memory. -/
def day2Exec (fuel : Nat) (memory : List Int) : Option (List Int) :=
  match pyGet memory 0 with
  | none => none
  | some inst =>
    if inst = 1 ∨ inst = 2 ∨ inst = 99 then day2Loop fuel inst 1 memory
    else none

/-! ### Arithmetic and Python-list helper lemmas -/

theorem ediv_ten_pow_succ (m : Int) (i : Nat) :
    m / (10 ^ i : Int) / 10 = m / (10 ^ (i + 1) : Int) := by
  have hp : (0 : Int) < 10 ^ i := pow_pos (by norm_num) i
  have hp1 : (0 : Int) < 10 ^ (i + 1) := pow_pos (by norm_num) (i + 1)
  have h0 : (10 : Int) ^ i * (m / 10 ^ i) + m % 10 ^ i = m :=
    Int.ediv_add_emod m (10 ^ i)
  have h1 : (10 : Int) * (m / 10 ^ i / 10) + m / 10 ^ i % 10 = m / 10 ^ i :=
    Int.ediv_add_emod (m / 10 ^ i) 10
  have hr0 : 0 ≤ m % 10 ^ i := Int.emod_nonneg m (ne_of_gt hp)
  have hr0' : m % 10 ^ i < 10 ^ i := Int.emod_lt_of_pos m hp
  have hr1 : 0 ≤ m / 10 ^ i % 10 := Int.emod_nonneg _ (by norm_num)
  have hr1' : m / 10 ^ i % 10 < 10 := Int.emod_lt_of_pos _ (by norm_num)
  have hsum : (10 ^ i * (m / 10 ^ i % 10) + m % 10 ^ i) +
      10 ^ (i + 1) * (m / 10 ^ i / 10) = m := by
    linear_combination h0 + (10 : Int) ^ i * h1
  have hnn : 0 ≤ 10 ^ i * (m / 10 ^ i % 10) + m % 10 ^ i :=
    add_nonneg (mul_nonneg (le_of_lt hp) hr1) hr0
  have hle : m / 10 ^ i % 10 + 1 ≤ 10 := Int.lt_iff_add_one_le.mp hr1'
  have hmul : (10 : Int) ^ i * (m / 10 ^ i % 10 + 1) ≤ 10 ^ i * 10 :=
    mul_le_mul_of_nonneg_left hle (le_of_lt hp)
  rw [mul_add, mul_one] at hmul
  have hlt : 10 ^ i * (m / 10 ^ i % 10) + m % 10 ^ i < 10 ^ (i + 1) := by
    have hps : (10 : Int) ^ (i + 1) = 10 ^ i * 10 := pow_succ 10 i
    linarith
  exact ((@Int.ediv_emod_unique m (10 ^ (i + 1))
    (10 ^ i * (m / 10 ^ i % 10) + m % 10 ^ i) (m / 10 ^ i / 10) hp1).mpr
    ⟨hsum, hnn, hlt⟩).1.symm

theorem nthDigit_zero (m : Int) : nthDigit m 0 = m % 10 := by
  simp [nthDigit]

theorem ediv_ten_shift (m : Int) (i : Nat) :
    (m / 10) / (10 ^ i : Int) = m / (10 ^ (i + 1) : Int) := by
  induction i with
  | zero => norm_num
  | succ j ih =>
    rw [← ediv_ten_pow_succ (m / 10) j, ih, ediv_ten_pow_succ]

theorem nthDigit_shift (m : Int) (i : Nat) :
    nthDigit (m / 10) i = nthDigit m (i + 1) := by
  unfold nthDigit
  rw [ediv_ten_shift]

theorem pyGet_nonneg (l : List Int) (i : Int) (h : 0 ≤ i) :
    pyGet l i = l.get? i.toNat := by
  simp [pyGet, h]

theorem pyGet_some_bounds (l : List Int) (i : Int) (w : Int) (h : 0 ≤ i)
    (hw : pyGet l i = some w) : i.toNat < l.length ∧ l.get? i.toNat = some w := by
  rw [pyGet_nonneg l i h] at hw
  exact ⟨(List.get?_eq_some.mp hw).1, hw⟩

theorem pyGet_append_of_lt (l l₂ : List Int) (i : Int) (h : 0 ≤ i)
    (hlt : i.toNat < l.length) : pyGet (l ++ l₂) i = pyGet l i := by
  rw [pyGet_nonneg _ i h, pyGet_nonneg _ i h]
  exact List.get?_append hlt

theorem pySet_in_range (l : List Int) (i v : Int) (h : 0 ≤ i)
    (hlt : i < (l.length : Int)) : pySet l i v = some (l.set i.toNat v) := by
  simp [pySet, h, hlt]

theorem pySlice_one_of_get (l : List Int) (a : Int) (r : Int) (h : 0 ≤ a)
    (hr : l.get? a.toNat = some r) : pySlice l a (a + 1) = [r] := by
  have hlt : a.toNat < l.length := (List.get?_eq_some.mp hr).1
  have ha1 : (0 : Int) ≤ a + 1 := by omega
  have htn : (a + 1).toNat = a.toNat + 1 := Int.toNat_add h (by norm_num)
  unfold pySlice pyBound
  rw [if_neg (by omega), if_neg (by omega), htn]
  rw [min_eq_left (by omega), min_eq_left (by omega)]
  rw [List.take_succ]
  have hget : l[a.toNat]? = some r := by
    rw [← List.get?_eq_getElem?]; exact hr
  rw [hget]
  exact List.drop_left' (by simp [List.length_take]; omega)

theorem pySlice_one_of_ge (l : List Int) (a : Int) (h : 0 ≤ a)
    (hge : l.length ≤ a.toNat) : pySlice l a (a + 1) = [] := by
  have htn : (a + 1).toNat = a.toNat + 1 := Int.toNat_add h (by norm_num)
  unfold pySlice pyBound
  rw [if_neg (by omega), if_neg (by omega), htn]
  rw [min_eq_right (by omega), min_eq_right (by omega)]
  refine List.drop_eq_nil_of_le ?_
  simp [List.length_take]

/-! ### growMem and resolveOne facts -/

theorem growMem_suffix (a : Int) (mem : List Int) :
    ∃ ext, growMem a mem = mem ++ ext ∧ ∀ x ∈ ext, x = 0 := by
  unfold growMem
  split
  · exact ⟨_, rfl, fun x hx => List.eq_of_mem_replicate hx⟩
  · exact ⟨[], by simp⟩

theorem growMem_length (a : Int) (mem : List Int) (h : 0 ≤ a) :
    a < ((growMem a mem).length : Int) := by
  unfold growMem
  split
  · rename_i hg
    simp only [List.length_append, List.length_replicate]
    push_cast
    omega
  · rename_i hg
    omega

theorem growMem_of_lt (a : Int) (mem : List Int) (h : a < (mem.length : Int)) :
    growMem a mem = mem := by
  unfold growMem
  rw [if_neg (by omega)]

theorem growMem_grow (a : Int) (mem : List Int) (h : (mem.length : Int) ≤ a) :
    growMem a mem = mem ++ List.replicate (a + 1 - (mem.length : Int)).toNat 0 ∧
    ((growMem a mem).length : Int) = a + 1 := by
  unfold growMem
  rw [if_pos h]
  refine ⟨rfl, ?_⟩
  simp only [List.length_append, List.length_replicate]
  push_cast
  omega

theorem growMem_idem (a : Int) (mem : List Int) :
    growMem a (growMem a mem) = growMem a mem := by
  by_cases h : 0 ≤ a
  · exact growMem_of_lt a _ (growMem_length a mem h)
  · rw [growMem_of_lt a mem (by omega), growMem_of_lt a mem (by omega)]

theorem growMem_get_of_lt (a : Int) (mem : List Int) (j : Nat)
    (hj : j < mem.length) : (growMem a mem).get? j = mem.get? j := by
  obtain ⟨ext, hext, -⟩ := growMem_suffix a mem
  rw [hext]
  exact List.get?_append hj

theorem pyGet_growMem_self (a : Int) (mem : List Int) (h : 0 ≤ a) :
    ∃ v, pyGet (growMem a mem) a = some v := by
  have hlt := growMem_length a mem h
  rw [pyGet_nonneg _ a h]
  have hn : a.toNat < (growMem a mem).length := by omega
  exact ⟨_, List.get?_eq_get hn⟩

theorem pyGet_growMem_zero (a : Int) (mem : List Int)
    (h : (mem.length : Int) ≤ a) : pyGet (growMem a mem) a = some 0 := by
  have h0 : (0 : Int) ≤ a := le_trans (Int.natCast_nonneg mem.length) h
  obtain ⟨hg, hlen⟩ := growMem_grow a mem h
  rw [pyGet_nonneg _ a h0, hg]
  rw [List.get?_append_right (by omega)]
  rw [List.get?_eq_getElem?, List.getElem?_replicate, if_pos (by omega)]

theorem resolveOne_imm (rb r : Int) (mem : List Int) :
    resolveOne rb 1 r mem = some (r, r, mem) := by
  simp [resolveOne]

theorem resolveOne_pos (rb r : Int) (mem : List Int) :
    resolveOne rb 0 r mem =
      match pyGet (growMem r mem) r with
      | none => none
      | some v => some (r, v, growMem r mem) := by
  simp only [resolveOne]
  norm_num

theorem resolveOne_rel (rb r : Int) (mem : List Int) :
    resolveOne rb 2 r mem =
      match pyGet (growMem (rb + r) mem) (rb + r) with
      | none => none
      | some v => some (rb + r, v, growMem (rb + r) mem) := by
  simp only [resolveOne]
  norm_num

theorem resolveOne_badMode (rb d r : Int) (mem : List Int)
    (h0 : d ≠ 0) (h1 : d ≠ 1) (h2 : d ≠ 2) : resolveOne rb d r mem = none := by
  simp [resolveOne, h0, h1, h2]

/-- Every successful `resolveOne` only appends zero cells to memory. -/
theorem resolveOne_mem_suffix (rb d r : Int) (mem : List Int)
    (reg v : Int) (mem₁ : List Int)
    (h : resolveOne rb d r mem = some (reg, v, mem₁)) :
    ∃ ext, mem₁ = mem ++ ext ∧ ∀ x ∈ ext, x = 0 := by
  by_cases h1 : d = 1
  · subst h1
    rw [resolveOne_imm] at h
    simp only [Option.some.injEq, Prod.mk.injEq] at h
    obtain ⟨-, -, h3⟩ := h
    exact ⟨[], by simp [← h3], by simp⟩
  by_cases h0 : d = 0
  · subst h0
    rw [resolveOne_pos] at h
    cases hv : pyGet (growMem r mem) r with
    | none => rw [hv] at h; cases h
    | some v' =>
      rw [hv] at h
      simp only [Option.some.injEq, Prod.mk.injEq] at h
      obtain ⟨-, -, h3⟩ := h
      obtain ⟨ext, hext, hz⟩ := growMem_suffix r mem
      exact ⟨ext, h3 ▸ hext, hz⟩
  by_cases h2 : d = 2
  · subst h2
    rw [resolveOne_rel] at h
    cases hv : pyGet (growMem (rb + r) mem) (rb + r) with
    | none => rw [hv] at h; cases h
    | some v' =>
      rw [hv] at h
      simp only [Option.some.injEq, Prod.mk.injEq] at h
      obtain ⟨-, -, h3⟩ := h
      obtain ⟨ext, hext, hz⟩ := growMem_suffix (rb + r) mem
      exact ⟨ext, h3 ▸ hext, hz⟩
  · rw [resolveOne_badMode rb d r mem h0 h1 h2] at h
    cases h

/-- Resolving the same parameter again on the already-grown memory gives
the same answer and no further growth. -/
theorem resolveOne_idem (rb d r : Int) (mem : List Int)
    (reg v : Int) (mem₁ : List Int)
    (h : resolveOne rb d r mem = some (reg, v, mem₁)) :
    resolveOne rb d r mem₁ = some (reg, v, mem₁) := by
  by_cases h1 : d = 1
  · subst h1
    rw [resolveOne_imm] at h
    simp only [Option.some.injEq, Prod.mk.injEq] at h
    obtain ⟨rfl, rfl, rfl⟩ := h
    exact resolveOne_imm _ _ _
  by_cases h0 : d = 0
  · subst h0
    rw [resolveOne_pos] at h
    cases hv : pyGet (growMem r mem) r with
    | none => rw [hv] at h; cases h
    | some v' =>
      rw [hv] at h
      simp only [Option.some.injEq, Prod.mk.injEq] at h
      obtain ⟨rfl, rfl, rfl⟩ := h
      rw [resolveOne_pos, growMem_idem, hv]
  by_cases h2 : d = 2
  · subst h2
    rw [resolveOne_rel] at h
    cases hv : pyGet (growMem (rb + r) mem) (rb + r) with
    | none => rw [hv] at h; cases h
    | some v' =>
      rw [hv] at h
      simp only [Option.some.injEq, Prod.mk.injEq] at h
      obtain ⟨rfl, rfl, rfl⟩ := h
      rw [resolveOne_rel, growMem_idem, hv]
  · rw [resolveOne_badMode rb d r mem h0 h1 h2] at h
    cases h

/-! ### resolveParams facts -/

theorem resolveParams_nil (rb m : Int) (mem : List Int) :
    resolveParams rb m [] mem = some ([], [], mem) := rfl

theorem resolveParams_cons_inv (rb m r : Int) (rest mem : List Int)
    (R O M : List Int)
    (h : resolveParams rb m (r :: rest) mem = some (R, O, M)) :
    ∃ reg v mem₁ regs ops,
      resolveOne rb (m % 10) r mem = some (reg, v, mem₁) ∧
      resolveParams rb (m / 10) rest mem₁ = some (regs, ops, M) ∧
      R = reg :: regs ∧ O = v :: ops := by
  simp only [resolveParams] at h
  cases h1 : resolveOne rb (m % 10) r mem with
  | none => rw [h1] at h; cases h
  | some t =>
    obtain ⟨reg, v, mem₁⟩ := t
    rw [h1] at h
    simp only at h
    cases h2 : resolveParams rb (m / 10) rest mem₁ with
    | none => rw [h2] at h; cases h
    | some t2 =>
      obtain ⟨regs2, ops2, mem₂⟩ := t2
      rw [h2] at h
      simp only [Option.some.injEq, Prod.mk.injEq] at h
      obtain ⟨hR, hO, rfl⟩ := h
      exact ⟨reg, v, mem₁, regs2, ops2, rfl, h2, hR.symm, hO.symm⟩

theorem resolveParams_cons_eq (rb m r : Int) (rest mem : List Int)
    (reg v : Int) (mem₁ : List Int) (regs ops M : List Int)
    (h1 : resolveOne rb (m % 10) r mem = some (reg, v, mem₁))
    (h2 : resolveParams rb (m / 10) rest mem₁ = some (regs, ops, M)) :
    resolveParams rb m (r :: rest) mem = some (reg :: regs, v :: ops, M) := by
  simp only [resolveParams, h1, h2]

theorem resolveParams_mem_suffix (rb : Int) :
    ∀ (regs : List Int) (m : Int) (mem R O M : List Int),
      resolveParams rb m regs mem = some (R, O, M) →
      ∃ ext, M = mem ++ ext ∧ ∀ x ∈ ext, x = 0
  | [], m, mem, R, O, M, h => by
    rw [resolveParams_nil] at h
    simp only [Option.some.injEq, Prod.mk.injEq] at h
    exact ⟨[], by simp [← h.2.2], by simp⟩
  | r :: rest, m, mem, R, O, M, h => by
    obtain ⟨reg, v, mem₁, regs2, ops2, h1, h2, rfl, rfl⟩ :=
      resolveParams_cons_inv rb m r rest mem R O M h
    obtain ⟨e1, he1, hz1⟩ := resolveOne_mem_suffix _ _ _ _ _ _ _ h1
    obtain ⟨e2, he2, hz2⟩ :=
      resolveParams_mem_suffix rb rest (m / 10) mem₁ regs2 ops2 M h2
    refine ⟨e1 ++ e2, ?_, ?_⟩
    · rw [he2, he1, List.append_assoc]
    · intro x hx
      rcases List.mem_append.mp hx with hx | hx
      · exact hz1 x hx
      · exact hz2 x hx

theorem resolveParams_lengths (rb : Int) :
    ∀ (regs : List Int) (m : Int) (mem R O M : List Int),
      resolveParams rb m regs mem = some (R, O, M) →
      R.length = regs.length ∧ O.length = regs.length
  | [], m, mem, R, O, M, h => by
    rw [resolveParams_nil] at h
    simp only [Option.some.injEq, Prod.mk.injEq] at h
    obtain ⟨h1, h2, -⟩ := h
    simp [← h1, ← h2]
  | r :: rest, m, mem, R, O, M, h => by
    obtain ⟨reg, v, mem₁, regs2, ops2, h1, h2, rfl, rfl⟩ :=
      resolveParams_cons_inv rb m r rest mem R O M h
    have := resolveParams_lengths rb rest (m / 10) mem₁ regs2 ops2 M h2
    simp [this.1, this.2]

/-! ### run basic facts -/

theorem run_zero (s : MachineState) : run 0 s = .ok s := rfl

theorem run_succ (fuel : Nat) (s : MachineState) :
    run (fuel + 1) s =
      match step s with
      | .ok s₁ => run fuel s₁
      | r => r := rfl

theorem run_congr_step (a b : MachineState) (h : step a = step b) (fuel : Nat) :
    run (fuel + 1) a = run (fuel + 1) b := by
  rw [run_succ, run_succ, h]

theorem run_terminal_mono (fuel : Nat) :
    ∀ (s : MachineState) (r : ExecResult), run fuel s = r →
      (∀ t, r ≠ .ok t) → ∀ j, run (fuel + j) s = r := by
  induction fuel with
  | zero =>
    intro s r h hne j
    rw [run_zero] at h
    subst h
    exact absurd rfl (hne s)
  | succ n ih =>
    intro s r h hne j
    rw [run_succ] at h
    rw [show n + 1 + j = (n + j) + 1 by omega, run_succ]
    cases hs : step s <;> simp only [hs] at h ⊢ <;>
      first
      | exact ih _ r h hne j
      | exact h

/-! ### Input-queue and yield-flag commuting lemmas -/

theorem readRegisters_input (n : Nat) (mode : Int) (s : MachineState)
    (ins : List Int) :
    readRegisters n mode { s with inputStream := ins } =
      match readRegisters n mode s with
      | none => none
      | some (regs, ops, t) => some (regs, ops, { t with inputStream := ins }) := by
  unfold readRegisters
  cases h : resolveParams s.relativeBase mode
      (pySlice s.memory s.pc (s.pc + (n : Int))) s.memory with
  | none => simp [h]
  | some t =>
    obtain ⟨regs, ops, mem'⟩ := t
    simp [h]

theorem readRegisters_yield (n : Nat) (mode : Int) (s : MachineState)
    (b : Bool) :
    readRegisters n mode { s with yieldOnOutput := b } =
      match readRegisters n mode s with
      | none => none
      | some (regs, ops, t) => some (regs, ops, { t with yieldOnOutput := b }) := by
  unfold readRegisters
  cases h : resolveParams s.relativeBase mode
      (pySlice s.memory s.pc (s.pc + (n : Int))) s.memory with
  | none => simp [h]
  | some t =>
    obtain ⟨regs, ops, mem'⟩ := t
    simp [h]

/-! ### execInstr unfolding per opcode -/

theorem execInstr_op1 (regs ops : List Int) (s : MachineState) :
    execInstr 1 regs ops s =
      (match regs.get? 2, ops.get? 0, ops.get? 1 with
       | some dst, some a, some b => writeMem dst (a + b) s
       | _, _, _ => .error) := rfl

theorem execInstr_op2 (regs ops : List Int) (s : MachineState) :
    execInstr 2 regs ops s =
      (match regs.get? 2, ops.get? 0, ops.get? 1 with
       | some dst, some a, some b => writeMem dst (a * b) s
       | _, _, _ => .error) := rfl

theorem execInstr_op3 (regs ops : List Int) (s : MachineState) :
    execInstr 3 regs ops s =
      (if s.inputStream.isEmpty then
        .waitingForInput { s with pc := s.pc - 2 }
      else
        match regs.get? 0, s.inputStream with
        | some dst, v :: rest => writeMem dst v { s with inputStream := rest }
        | _, _ => .error) := rfl

theorem execInstr_op4 (regs ops : List Int) (s : MachineState) :
    execInstr 4 regs ops s =
      (match ops.get? 0 with
       | some v =>
         if s.yieldOnOutput then
           .yieldAfterOutput { s with outputStream := s.outputStream ++ [v] }
         else .ok { s with outputStream := s.outputStream ++ [v] }
       | none => .error) := rfl

theorem execInstr_op5 (regs ops : List Int) (s : MachineState) :
    execInstr 5 regs ops s =
      (match ops.get? 0, ops.get? 1 with
       | some a, some b => .ok (if a ≠ 0 then { s with pc := b } else s)
       | _, _ => .error) := rfl

theorem execInstr_op6 (regs ops : List Int) (s : MachineState) :
    execInstr 6 regs ops s =
      (match ops.get? 0, ops.get? 1 with
       | some a, some b => .ok (if a = 0 then { s with pc := b } else s)
       | _, _ => .error) := rfl

theorem execInstr_op7 (regs ops : List Int) (s : MachineState) :
    execInstr 7 regs ops s =
      (match regs.get? 2, ops.get? 0, ops.get? 1 with
       | some dst, some a, some b => writeMem dst (if a < b then 1 else 0) s
       | _, _, _ => .error) := rfl

theorem execInstr_op8 (regs ops : List Int) (s : MachineState) :
    execInstr 8 regs ops s =
      (match regs.get? 2, ops.get? 0, ops.get? 1 with
       | some dst, some a, some b => writeMem dst (if a = b then 1 else 0) s
       | _, _, _ => .error) := rfl

theorem execInstr_op9 (regs ops : List Int) (s : MachineState) :
    execInstr 9 regs ops s =
      (match ops.get? 0 with
       | some k => .ok { s with relativeBase := s.relativeBase + k }
       | none => .error) := rfl

theorem execInstr_op99 (regs ops : List Int) (s : MachineState) :
    execInstr 99 regs ops s =
      (match pyGet s.memory 0 with
       | some v => .halted s v
       | none => .error) := rfl

/-! ### Appending pending input commutes with fall-through steps -/

theorem writeMem_append_ok (dst w : Int) (s t : MachineState) (ext : List Int)
    (h : writeMem dst w s = .ok t) :
    writeMem dst w (appendInput ext s) = .ok (appendInput ext t) := by
  unfold writeMem at h ⊢
  simp only [appendInput] at h ⊢
  cases hp : pySet s.memory dst w with
  | none => rw [hp] at h; cases h
  | some mem =>
    rw [hp] at h
    simp only [ExecResult.ok.injEq] at h
    subst h
    rfl

theorem writeOp_append_ok (regs ops : List Int) (f : Int → Int → Int)
    (s t : MachineState) (ext : List Int)
    (h : (match regs.get? 2, ops.get? 0, ops.get? 1 with
          | some dst, some a, some b => writeMem dst (f a b) s
          | _, _, _ => ExecResult.error) = .ok t) :
    (match regs.get? 2, ops.get? 0, ops.get? 1 with
     | some dst, some a, some b => writeMem dst (f a b) (appendInput ext s)
     | _, _, _ => ExecResult.error) = .ok (appendInput ext t) := by
  cases hr : regs.get? 2 <;> cases ha : ops.get? 0 <;> cases hb : ops.get? 1 <;>
    rw [hr, ha, hb] at h <;> simp only at h <;> try (cases h)
  exact writeMem_append_ok _ _ s t ext h

theorem writeMem_append (dst w : Int) (s : MachineState) (ext : List Int) :
    writeMem dst w (appendInput ext s) =
      mapResultState (appendInput ext) (writeMem dst w s) := by
  unfold writeMem
  dsimp only [appendInput]
  cases hp : pySet s.memory dst w <;> simp [hp, mapResultState, appendInput]

theorem writeOp_append (regs ops : List Int) (f : Int → Int → Int)
    (s : MachineState) (ext : List Int) :
    (match regs.get? 2, ops.get? 0, ops.get? 1 with
     | some dst, some a, some b => writeMem dst (f a b) (appendInput ext s)
     | _, _, _ => ExecResult.error) =
      mapResultState (appendInput ext)
        (match regs.get? 2, ops.get? 0, ops.get? 1 with
         | some dst, some a, some b => writeMem dst (f a b) s
         | _, _, _ => ExecResult.error) := by
  cases regs.get? 2 <;> cases ops.get? 0 <;> cases ops.get? 1 <;>
    first
    | rfl
    | exact writeMem_append _ _ s ext

/-- Appending values at the tail of the pending input queue commutes
with every instruction except `ReadInput` (opcode 3), which is the only
instruction that inspects the queue. -/
theorem execInstr_append_indep (op : Int) (hop : op ≠ 3)
    (regs ops : List Int) (ext : List Int) (s : MachineState) :
    execInstr op regs ops (appendInput ext s) =
      mapResultState (appendInput ext) (execInstr op regs ops s) := by
  by_cases h1 : op = 1
  · subst h1
    rw [execInstr_op1, execInstr_op1]
    exact writeOp_append regs ops (fun a b => a + b) s ext
  by_cases h2 : op = 2
  · subst h2
    rw [execInstr_op2, execInstr_op2]
    exact writeOp_append regs ops (fun a b => a * b) s ext
  by_cases h4 : op = 4
  · subst h4
    rw [execInstr_op4, execInstr_op4]
    cases ho : ops.get? 0 with
    | none => rfl
    | some v =>
      dsimp only [appendInput]
      cases hy : s.yieldOnOutput <;> simp [hy, mapResultState, appendInput]
  by_cases h5 : op = 5
  · subst h5
    rw [execInstr_op5, execInstr_op5]
    cases ops.get? 0 <;> cases ops.get? 1 <;> try rfl
    rename_i a b
    dsimp only [mapResultState]
    by_cases ha : a = 0 <;> simp [ha, appendInput]
  by_cases h6 : op = 6
  · subst h6
    rw [execInstr_op6, execInstr_op6]
    cases ops.get? 0 <;> cases ops.get? 1 <;> try rfl
    rename_i a b
    dsimp only [mapResultState]
    by_cases ha : a = 0 <;> simp [ha, appendInput]
  by_cases h7 : op = 7
  · subst h7
    rw [execInstr_op7, execInstr_op7]
    exact writeOp_append regs ops (fun a b => if a < b then 1 else 0) s ext
  by_cases h8 : op = 8
  · subst h8
    rw [execInstr_op8, execInstr_op8]
    exact writeOp_append regs ops (fun a b => if a = b then 1 else 0) s ext
  by_cases h9 : op = 9
  · subst h9
    rw [execInstr_op9, execInstr_op9]
    cases ops.get? 0 <;> rfl
  by_cases h99 : op = 99
  · subst h99
    rw [execInstr_op99, execInstr_op99]
    dsimp only [appendInput]
    cases pyGet s.memory 0 <;> rfl
  · unfold execInstr
    rw [if_neg h1, if_neg h2, if_neg hop, if_neg h4, if_neg h5, if_neg h6,
      if_neg h7, if_neg h8, if_neg h9, if_neg h99,
      if_neg h1, if_neg h2, if_neg hop, if_neg h4, if_neg h5, if_neg h6,
      if_neg h7, if_neg h8, if_neg h9, if_neg h99]
    rfl

/-- A fall-through (`.ok`) step of any instruction is preserved when
further input is appended at the tail of the queue. -/
theorem execInstr_append_ok (op : Int) (regs ops : List Int)
    (s t : MachineState) (ext : List Int)
    (h : execInstr op regs ops s = .ok t) :
    execInstr op regs ops (appendInput ext s) = .ok (appendInput ext t) := by
  by_cases hop : op = 3
  · subst hop
    rw [execInstr_op3] at h ⊢
    cases hin : s.inputStream with
    | nil =>
      rw [hin] at h
      simp at h
    | cons v rest =>
      rw [hin] at h
      simp only [List.isEmpty_cons, Bool.false_eq_true, if_false] at h
      have hins : (appendInput ext s).inputStream = v :: (rest ++ ext) := by
        dsimp only [appendInput]
        rw [hin, List.cons_append]
      rw [hins]
      simp only [List.isEmpty_cons, Bool.false_eq_true, if_false]
      cases hr : regs.get? 0 with
      | none => rw [hr] at h; simp at h
      | some dst =>
        rw [hr] at h
        simp only at h ⊢
        have := writeMem_append_ok dst v { s with inputStream := rest } t ext h
        exact this
  · rw [execInstr_append_indep op hop regs ops ext s, h]
    rfl

theorem readRegisters_inv (n : Nat) (mode : Int) (s : MachineState)
    (regs ops : List Int) (s₂ : MachineState)
    (h : readRegisters n mode s = some (regs, ops, s₂)) :
    ∃ M, resolveParams s.relativeBase mode
        (pySlice s.memory s.pc (s.pc + (n : Int))) s.memory = some (regs, ops, M) ∧
      s₂ = { s with memory := M, pc := s.pc + (n : Int) } := by
  unfold readRegisters at h
  dsimp only at h
  cases hres : resolveParams s.relativeBase mode
      (pySlice s.memory s.pc (s.pc + (n : Int))) s.memory with
  | none => rw [hres] at h; cases h
  | some trip =>
    obtain ⟨regs', ops', M⟩ := trip
    rw [hres] at h
    simp only [Option.some.injEq, Prod.mk.injEq] at h
    obtain ⟨rfl, rfl, rfl⟩ := h
    exact ⟨M, rfl, rfl⟩

theorem step_append_ok (s t : MachineState) (ext : List Int)
    (h : step s = .ok t) : step (appendInput ext s) = .ok (appendInput ext t) := by
  unfold step at h ⊢
  dsimp only [appendInput]
  cases hw : pyGet s.memory s.pc with
  | none => rw [hw] at h; cases h
  | some w =>
    rw [hw] at h
    dsimp only at h ⊢
    cases hn : paramCount (w % 100) with
    | none => rw [hn] at h; dsimp only at h; cases h
    | some n =>
      rw [hn] at h
      dsimp only at h ⊢
      have key := readRegisters_input n (w / 100) { s with pc := s.pc + 1 }
        (s.inputStream ++ ext)
      cases hR : readRegisters n (w / 100) { s with pc := s.pc + 1 } with
      | none =>
        rw [hR] at h
        cases h
      | some trip =>
        obtain ⟨regs, ops2, s₂⟩ := trip
        rw [hR] at h key
        dsimp only at h key
        rw [key]
        dsimp only
        obtain ⟨M, hres, rfl⟩ := readRegisters_inv n (w / 100) _ regs ops2 _ hR
        exact execInstr_append_ok (w % 100) regs ops2 _ t ext h

theorem writeMem_not_waiting (dst w : Int) (s r : MachineState)
    (h : writeMem dst w s = .waitingForInput r) : False := by
  unfold writeMem at h
  cases hp : pySet s.memory dst w <;> rw [hp] at h <;> cases h

theorem writeOp_not_waiting (regs ops : List Int) (f : Int → Int → Int)
    (s r : MachineState)
    (h : (match regs.get? 2, ops.get? 0, ops.get? 1 with
          | some dst, some a, some b => writeMem dst (f a b) s
          | _, _, _ => ExecResult.error) = .waitingForInput r) : False := by
  cases hr : regs.get? 2 <;> cases ha : ops.get? 0 <;> cases hb : ops.get? 1 <;>
    rw [hr, ha, hb] at h <;> simp only at h <;> try (cases h)
  exact writeMem_not_waiting _ _ _ _ h

/-- Only `ReadInput` (opcode 3) with an empty queue suspends, and it
rewinds the program counter by 2. -/
theorem execInstr_waiting_inv (op : Int) (regs ops : List Int)
    (s₂ s' : MachineState) (h : execInstr op regs ops s₂ = .waitingForInput s') :
    op = 3 ∧ s₂.inputStream = [] ∧ s' = { s₂ with pc := s₂.pc - 2 } := by
  by_cases h1 : op = 1
  · subst h1; rw [execInstr_op1] at h
    exact absurd h (fun hh => writeOp_not_waiting regs ops _ s₂ s' hh)
  by_cases h2 : op = 2
  · subst h2; rw [execInstr_op2] at h
    exact absurd h (fun hh => writeOp_not_waiting regs ops _ s₂ s' hh)
  by_cases h3 : op = 3
  · subst h3; rw [execInstr_op3] at h
    cases hin : s₂.inputStream with
    | nil =>
      rw [hin] at h
      simp only [List.isEmpty_nil, if_true] at h
      cases h
      exact ⟨rfl, rfl, rfl⟩
    | cons v rest =>
      rw [hin] at h
      simp only [List.isEmpty_cons, Bool.false_eq_true, if_false] at h
      cases hr : regs.get? 0 <;> rw [hr] at h <;> simp only at h
      · cases h
      · exact absurd (writeMem_not_waiting _ _ _ _ h) id
  by_cases h4 : op = 4
  · subst h4; rw [execInstr_op4] at h
    cases ho : ops.get? 0 <;> rw [ho] at h <;> simp only at h
    · cases h
    · cases hy : s₂.yieldOnOutput <;> rw [hy] at h <;> simp only [if_true,
        Bool.false_eq_true, if_false] at h <;> cases h
  by_cases h5 : op = 5
  · subst h5; rw [execInstr_op5] at h
    cases ho : ops.get? 0 <;> cases hb : ops.get? 1 <;> rw [ho, hb] at h <;>
      simp only at h <;> cases h
  by_cases h6 : op = 6
  · subst h6; rw [execInstr_op6] at h
    cases ho : ops.get? 0 <;> cases hb : ops.get? 1 <;> rw [ho, hb] at h <;>
      simp only at h <;> cases h
  by_cases h7 : op = 7
  · subst h7; rw [execInstr_op7] at h
    exact absurd h (fun hh => writeOp_not_waiting regs ops _ s₂ s' hh)
  by_cases h8 : op = 8
  · subst h8; rw [execInstr_op8] at h
    exact absurd h (fun hh => writeOp_not_waiting regs ops _ s₂ s' hh)
  by_cases h9 : op = 9
  · subst h9; rw [execInstr_op9] at h
    cases ho : ops.get? 0 <;> rw [ho] at h <;> simp only at h <;> cases h
  by_cases h99 : op = 99
  · subst h99; rw [execInstr_op99] at h
    cases hm : pyGet s₂.memory 0 <;> rw [hm] at h <;> simp only at h <;> cases h
  · unfold execInstr at h
    rw [if_neg h1, if_neg h2, if_neg h3, if_neg h4, if_neg h5, if_neg h6,
      if_neg h7, if_neg h8, if_neg h9, if_neg h99] at h
    cases h

theorem step_char (s : MachineState) (w : Int) (n : Nat)
    (hw : pyGet s.memory s.pc = some w) (hn : paramCount (w % 100) = some n) :
    step s = (match readRegisters n (w / 100) { s with pc := s.pc + 1 } with
              | none => .error
              | some (regs, ops, s₂) => execInstr (w % 100) regs ops s₂) := by
  unfold step
  rw [hw]
  dsimp only
  rw [hn]

theorem readRegisters_one (mode : Int) (s : MachineState)
    (regs ops M : List Int)
    (hres : resolveParams s.relativeBase mode
      (pySlice s.memory s.pc (s.pc + 1)) s.memory = some (regs, ops, M)) :
    readRegisters 1 mode s =
      some (regs, ops, { s with memory := M, pc := s.pc + 1 }) := by
  unfold readRegisters
  dsimp only
  rw [show ((1 : Nat) : Int) = 1 from rfl]
  rw [hres]

/-- A suspended step comes exactly from an Input word fetched at the
program counter with an empty queue; the suspension state keeps the
program counter (advance by 1 at fetch, by 1 over the parameter, rewind
by 2) and carries the possibly grown memory. -/
theorem step_waiting_inv (s s' : MachineState)
    (h : step s = .waitingForInput s') :
    ∃ w regs ops M,
      pyGet s.memory s.pc = some w ∧
      w % 100 = 3 ∧
      resolveParams s.relativeBase (w / 100)
        (pySlice s.memory (s.pc + 1) (s.pc + 1 + 1)) s.memory =
        some (regs, ops, M) ∧
      s.inputStream = [] ∧
      s' = { s with memory := M } := by
  unfold step at h
  cases hw : pyGet s.memory s.pc with
  | none => rw [hw] at h; cases h
  | some w =>
    rw [hw] at h
    dsimp only at h
    cases hn : paramCount (w % 100) with
    | none => rw [hn] at h; dsimp only at h; cases h
    | some n =>
      rw [hn] at h
      dsimp only at h
      cases hR : readRegisters n (w / 100) { s with pc := s.pc + 1 } with
      | none => rw [hR] at h; cases h
      | some trip =>
        obtain ⟨regs, ops, s₂⟩ := trip
        rw [hR] at h
        dsimp only at h
        obtain ⟨hop3, hinE, rfl⟩ := execInstr_waiting_inv (w % 100) regs ops s₂ s' h
        rw [hop3] at hn
        have hn1 : n = 1 := by
          rw [show paramCount 3 = some 1 from rfl] at hn
          exact (Option.some.inj hn).symm
        subst hn1
        obtain ⟨M, hres, hs₂⟩ := readRegisters_inv 1 (w / 100) _ regs ops s₂ hR
        refine ⟨w, regs, ops, M, rfl, hop3, ?_, ?_, ?_⟩
        · dsimp only at hres
          push_cast at hres
          exact hres
        · rw [hs₂] at hinE
          exact hinE
        · rw [hs₂]
          dsimp only
          simp only [MachineState.mk.injEq, and_true]
          push_cast
          ring

theorem step_exec (s : MachineState) (w : Int) (n : Nat)
    (regs ops : List Int) (s₂ : MachineState)
    (hw : pyGet s.memory s.pc = some w)
    (hn : paramCount (w % 100) = some n)
    (hrr : readRegisters n (w / 100) { s with pc := s.pc + 1 } =
      some (regs, ops, s₂)) :
    step s = execInstr (w % 100) regs ops s₂ := by
  rw [step_char s w n hw hn, hrr]

/-- Resuming a machine suspended on input (at a non-negative program
counter) after writing values into its queue performs the same step as
the machine at the suspension point would have performed with those
values available: the partial effects of the suspended Input attempt
(memory growth by zero cells) are invisible on resume. -/
theorem step_resume_eq (s s' : MachineState)
    (h : step s = .waitingForInput s') (hpc : 0 ≤ s.pc) (ins : List Int) :
    step { s' with inputStream := ins } = step { s with inputStream := ins } := by
  obtain ⟨spc, smem, srb, sin, sout, sfl⟩ := s
  obtain ⟨w, regs, ops, M, hw, hop3, hres, hinE, rfl⟩ := step_waiting_inv _ s' h
  dsimp only at hw hop3 hres hinE hpc ⊢
  subst hinE
  have hn3 : paramCount (w % 100) = some 1 := by
    rw [hop3]
    rfl
  have hb := pyGet_some_bounds smem spc w hpc hw
  obtain ⟨ext, hM, hz⟩ := resolveParams_mem_suffix srb _ _ _ _ _ _ hres
  have hwM : pyGet M spc = some w := by
    rw [hM, pyGet_append_of_lt smem ext spc hpc hb.1]
    exact hw
  by_cases hcase : (spc + 1).toNat < smem.length
  · obtain ⟨r, hr⟩ : ∃ r, smem.get? (spc + 1).toNat = some r :=
      ⟨_, List.get?_eq_get hcase⟩
    have hσ : pySlice smem (spc + 1) (spc + 1 + 1) = [r] :=
      pySlice_one_of_get smem (spc + 1) r (by omega) hr
    rw [hσ] at hres
    obtain ⟨reg, v, mem₁, regs1, ops1, h1, h2, rfl, rfl⟩ :=
      resolveParams_cons_inv srb (w / 100) r [] smem regs ops M hres
    rw [resolveParams_nil] at h2
    simp only [Option.some.injEq, Prod.mk.injEq] at h2
    obtain ⟨rfl, rfl, rfl⟩ := h2
    have hresB : resolveParams srb (w / 100)
        (pySlice smem (spc + 1) (spc + 1 + 1)) smem = some ([reg], [v], mem₁) := by
      rw [hσ]
      exact resolveParams_cons_eq srb (w / 100) r [] smem reg v mem₁ [] [] mem₁
        h1 (resolveParams_nil srb (w / 100 / 10) mem₁)
    have hrM : mem₁.get? (spc + 1).toNat = some r := by
      rw [hM, List.get?_append hcase]
      exact hr
    have hσA : pySlice mem₁ (spc + 1) (spc + 1 + 1) = [r] :=
      pySlice_one_of_get mem₁ (spc + 1) r (by omega) hrM
    have h1A : resolveOne srb (w / 100 % 10) r mem₁ = some (reg, v, mem₁) :=
      resolveOne_idem srb (w / 100 % 10) r smem reg v mem₁ h1
    have hresA : resolveParams srb (w / 100)
        (pySlice mem₁ (spc + 1) (spc + 1 + 1)) mem₁ = some ([reg], [v], mem₁) := by
      rw [hσA]
      exact resolveParams_cons_eq srb (w / 100) r [] mem₁ reg v mem₁ [] [] mem₁
        h1A (resolveParams_nil srb (w / 100 / 10) mem₁)
    have hrrA := readRegisters_one (w / 100)
      (⟨spc + 1, mem₁, srb, ins, sout, sfl⟩ : MachineState) [reg] [v] mem₁
      (by exact hresA)
    have hrrB := readRegisters_one (w / 100)
      (⟨spc + 1, smem, srb, ins, sout, sfl⟩ : MachineState) [reg] [v] mem₁
      (by exact hresB)
    have hA := step_exec (⟨spc, mem₁, srb, ins, sout, sfl⟩ : MachineState)
      w 1 [reg] [v] _ (by exact hwM) hn3 (by exact hrrA)
    have hB := step_exec (⟨spc, smem, srb, ins, sout, sfl⟩ : MachineState)
      w 1 [reg] [v] _ (by exact hw) hn3 (by exact hrrB)
    rw [hA, hB]
  · have hσ : pySlice smem (spc + 1) (spc + 1 + 1) = [] :=
      pySlice_one_of_ge smem (spc + 1) (by omega) (by omega)
    rw [hσ, resolveParams_nil] at hres
    simp only [Option.some.injEq, Prod.mk.injEq] at hres
    obtain ⟨-, -, rfl⟩ := hres
    rfl

theorem run_waiting_last (fuel : Nat) :
    ∀ s s', run fuel s = .waitingForInput s' →
      ∃ t, step t = .waitingForInput s' := by
  induction fuel with
  | zero => intro s s' h; rw [run_zero] at h; cases h
  | succ n ih =>
    intro s s' h
    rw [run_succ] at h
    cases hs : step s <;> rw [hs] at h <;> simp only at h
    case ok s₁ => exact ih s₁ s' h
    case waitingForInput s₂ =>
      cases h
      exact ⟨s, hs⟩
    all_goals cases h

/-- Simulation: a run that suspends waiting for input, performed with
extra input already queued behind the (eventually empty) queue, reaches
after the same number of steps exactly the configuration obtained by
resuming the suspended machine with that input. -/
theorem run_waiting_sim (fuel : Nat) :
    ∀ s s', run fuel s = .waitingForInput s' → 0 ≤ s'.pc →
      ∀ ext : List Int, ∃ k, k < fuel ∧
        ∀ m, 1 ≤ m →
          run (k + m) (appendInput ext s) =
            run m { s' with inputStream := ext } := by
  induction fuel with
  | zero => intro s s' h; rw [run_zero] at h; cases h
  | succ n ih =>
    intro s s' h hpc ext
    rw [run_succ] at h
    cases hs : step s <;> rw [hs] at h <;> simp only at h
    case ok s₁ =>
      obtain ⟨k, hk, hsim⟩ := ih s₁ s' h hpc ext
      refine ⟨k + 1, by omega, ?_⟩
      intro m hm
      rw [show k + 1 + m = (k + m) + 1 by omega, run_succ,
        step_append_ok s s₁ ext hs]
      exact hsim m hm
    case waitingForInput s₂ =>
      cases h
      refine ⟨0, by omega, ?_⟩
      intro m hm
      obtain ⟨m', rfl⟩ : ∃ m', m = m' + 1 := ⟨m - 1, by omega⟩
      obtain ⟨w, regs, ops, M, -, -, -, hinE, hs'⟩ := step_waiting_inv s s' hs
      have happ : appendInput ext s = { s with inputStream := ext } := by
        unfold appendInput
        rw [hinE, List.nil_append]
      have hpc' : 0 ≤ s.pc := by
        rw [hs'] at hpc
        exact hpc
      rw [Nat.zero_add, happ]
      exact (run_congr_step _ _ (step_resume_eq s s' hs hpc' ext) m').symm
    all_goals cases h

/-! ### The pause-after-output policy flag only reroutes output steps -/

theorem writeMem_yield_toOk (dst w : Int) (s : MachineState) :
    writeMem dst w (setYield false s) =
      yieldToOk (mapResultState (setYield false) (writeMem dst w s)) := by
  unfold writeMem
  dsimp only [setYield]
  cases hp : pySet s.memory dst w <;> simp [hp, mapResultState, yieldToOk, setYield]

theorem writeOp_yield_toOk (regs ops : List Int) (f : Int → Int → Int)
    (s : MachineState) :
    (match regs.get? 2, ops.get? 0, ops.get? 1 with
     | some dst, some a, some b => writeMem dst (f a b) (setYield false s)
     | _, _, _ => ExecResult.error) =
      yieldToOk (mapResultState (setYield false)
        (match regs.get? 2, ops.get? 0, ops.get? 1 with
         | some dst, some a, some b => writeMem dst (f a b) s
         | _, _, _ => ExecResult.error)) := by
  cases regs.get? 2 <;> cases ops.get? 0 <;> cases ops.get? 1 <;>
    first
    | rfl
    | exact writeMem_yield_toOk _ _ s

theorem execInstr_yield_false (op : Int) (regs ops : List Int)
    (s : MachineState) :
    execInstr op regs ops (setYield false s) =
      yieldToOk (mapResultState (setYield false) (execInstr op regs ops s)) := by
  by_cases h1 : op = 1
  · subst h1; rw [execInstr_op1, execInstr_op1]
    exact writeOp_yield_toOk regs ops (fun a b => a + b) s
  by_cases h2 : op = 2
  · subst h2; rw [execInstr_op2, execInstr_op2]
    exact writeOp_yield_toOk regs ops (fun a b => a * b) s
  by_cases h3 : op = 3
  · subst h3; rw [execInstr_op3, execInstr_op3]
    dsimp only [setYield]
    cases hin : s.inputStream with
    | nil => rfl
    | cons v rest =>
      simp only [List.isEmpty_cons, Bool.false_eq_true, if_false]
      cases hr : regs.get? 0 with
      | none => rfl
      | some dst =>
        exact writeMem_yield_toOk dst v { s with inputStream := rest }
  by_cases h4 : op = 4
  · subst h4; rw [execInstr_op4, execInstr_op4]
    cases ho : ops.get? 0 with
    | none => rfl
    | some v =>
      dsimp only [setYield]
      cases hy : s.yieldOnOutput <;>
        simp [hy, mapResultState, yieldToOk, setYield]
  by_cases h5 : op = 5
  · subst h5; rw [execInstr_op5, execInstr_op5]
    cases ops.get? 0 <;> cases ops.get? 1 <;> try rfl
    rename_i a b
    dsimp only [mapResultState, yieldToOk, setYield]
    by_cases ha : a = 0 <;> simp [ha]
  by_cases h6 : op = 6
  · subst h6; rw [execInstr_op6, execInstr_op6]
    cases ops.get? 0 <;> cases ops.get? 1 <;> try rfl
    rename_i a b
    dsimp only [mapResultState, yieldToOk, setYield]
    by_cases ha : a = 0 <;> simp [ha]
  by_cases h7 : op = 7
  · subst h7; rw [execInstr_op7, execInstr_op7]
    exact writeOp_yield_toOk regs ops (fun a b => if a < b then 1 else 0) s
  by_cases h8 : op = 8
  · subst h8; rw [execInstr_op8, execInstr_op8]
    exact writeOp_yield_toOk regs ops (fun a b => if a = b then 1 else 0) s
  by_cases h9 : op = 9
  · subst h9; rw [execInstr_op9, execInstr_op9]
    cases ops.get? 0 <;> rfl
  by_cases h99 : op = 99
  · subst h99; rw [execInstr_op99, execInstr_op99]
    dsimp only [setYield]
    cases pyGet s.memory 0 <;> rfl
  · unfold execInstr
    rw [if_neg h1, if_neg h2, if_neg h3, if_neg h4, if_neg h5, if_neg h6,
      if_neg h7, if_neg h8, if_neg h9, if_neg h99,
      if_neg h1, if_neg h2, if_neg h3, if_neg h4, if_neg h5, if_neg h6,
      if_neg h7, if_neg h8, if_neg h9, if_neg h99]
    rfl

theorem step_setYield_false (s : MachineState) :
    step (setYield false s) =
      yieldToOk (mapResultState (setYield false) (step s)) := by
  unfold step
  dsimp only [setYield]
  cases hw : pyGet s.memory s.pc with
  | none => rfl
  | some w =>
    dsimp only
    cases hn : paramCount (w % 100) with
    | none => rfl
    | some n =>
      dsimp only
      have key := readRegisters_yield n (w / 100) { s with pc := s.pc + 1 } false
      cases hR : readRegisters n (w / 100) { s with pc := s.pc + 1 } with
      | none =>
        rw [hR] at key
        dsimp only at key
        rw [key]
        rfl
      | some trip =>
        obtain ⟨regs, ops2, s₂⟩ := trip
        rw [hR] at key
        dsimp only at key
        rw [key]
        dsimp only
        exact execInstr_yield_false (w % 100) regs ops2 s₂

/-- Running while resuming through every output pause is lock-step
equivalent (modulo the policy flag recorded in the state) to running
with the pause policy disabled. -/
theorem runThroughYields_eq_run (fuel : Nat) :
    ∀ t : MachineState,
      mapResultState (setYield false) (runThroughYields fuel t) =
        run fuel (setYield false t) := by
  induction fuel with
  | zero => intro t; rfl
  | succ n ih =>
    intro t
    rw [show runThroughYields (n + 1) t =
        (match step t with
         | .ok s₁ => runThroughYields n s₁
         | .yieldAfterOutput s₁ => runThroughYields n s₁
         | r => r) from rfl]
    rw [run_succ, step_setYield_false t]
    cases hs : step t <;> simp only [mapResultState, yieldToOk]
    case ok s₁ => exact ih s₁
    case yieldAfterOutput s₁ => exact ih s₁

/-! ### Effective-address facts about resolveOne / resolveParams -/

theorem resolveOne_addr_success (rb d r : Int) (mem : List Int)
    (hd : d = 0 ∨ d = 2) (hnn : 0 ≤ resolvedAddr rb d r) :
    ∃ v, resolveOne rb d r mem =
      some (resolvedAddr rb d r, v, growMem (resolvedAddr rb d r) mem) := by
  rcases hd with rfl | rfl
  · simp only [resolvedAddr, if_pos] at hnn ⊢
    obtain ⟨v, hv⟩ := pyGet_growMem_self r mem hnn
    rw [resolveOne_pos, hv]
    exact ⟨v, rfl⟩
  · simp only [resolvedAddr] at hnn ⊢
    norm_num at hnn ⊢
    obtain ⟨v, hv⟩ := pyGet_growMem_self (rb + r) mem hnn
    rw [resolveOne_rel, hv]
    exact ⟨v, rfl⟩

theorem resolveOne_addr_inv (rb d r : Int) (mem : List Int)
    (reg v : Int) (mem₁ : List Int) (hd : d = 0 ∨ d = 2)
    (h : resolveOne rb d r mem = some (reg, v, mem₁)) :
    reg = resolvedAddr rb d r ∧ mem₁ = growMem reg mem ∧
      pyGet mem₁ reg = some v := by
  rcases hd with rfl | rfl
  · rw [resolveOne_pos] at h
    cases hv : pyGet (growMem r mem) r <;> rw [hv] at h
    · cases h
    · simp only [Option.some.injEq, Prod.mk.injEq] at h
      obtain ⟨rfl, rfl, rfl⟩ := h
      exact ⟨by simp [resolvedAddr], rfl, hv⟩
  · rw [resolveOne_rel] at h
    cases hv : pyGet (growMem (rb + r) mem) (rb + r) <;> rw [hv] at h
    · cases h
    · simp only [Option.some.injEq, Prod.mk.injEq] at h
      obtain ⟨rfl, rfl, rfl⟩ := h
      exact ⟨by simp [resolvedAddr], rfl, hv⟩

theorem resolveOne_neg_wrap (rb d r : Int) (mem : List Int)
    (hd : d = 0 ∨ d = 2) (hneg : resolvedAddr rb d r < 0)
    (hin : -(mem.length : Int) ≤ resolvedAddr rb d r) :
    ∃ v, mem.get? ((mem.length : Int) + resolvedAddr rb d r).toNat = some v ∧
      resolveOne rb d r mem = some (resolvedAddr rb d r, v, mem) := by
  have hgrow : growMem (resolvedAddr rb d r) mem = mem :=
    growMem_of_lt _ mem (by omega)
  have hlen : ((mem.length : Int) + resolvedAddr rb d r).toNat < mem.length := by
    omega
  obtain ⟨v, hv⟩ : ∃ v, mem.get? ((mem.length : Int) + resolvedAddr rb d r).toNat
      = some v := ⟨_, List.get?_eq_get hlen⟩
  have hpy : pyGet mem (resolvedAddr rb d r) = some v := by
    unfold pyGet
    rw [if_neg (by omega), if_pos (by omega)]
    exact hv
  rcases hd with rfl | rfl
  · simp only [resolvedAddr, if_pos] at hgrow hpy hv ⊢
    rw [resolveOne_pos, hgrow, hpy]
    exact ⟨v, hv, rfl⟩
  · simp only [resolvedAddr] at hgrow hpy hv ⊢
    norm_num at hgrow hpy hv ⊢
    rw [resolveOne_rel, hgrow, hpy]
    exact ⟨v, hv, rfl⟩

theorem resolveOne_neg_fail (rb d r : Int) (mem : List Int)
    (hd : d = 0 ∨ d = 2)
    (hout : resolvedAddr rb d r < -(mem.length : Int)) :
    resolveOne rb d r mem = none := by
  have hneg : resolvedAddr rb d r < 0 := by
    have : (0 : Int) ≤ (mem.length : Int) := Int.natCast_nonneg _
    omega
  have hgrow : growMem (resolvedAddr rb d r) mem = mem :=
    growMem_of_lt _ mem (by omega)
  have hpy : pyGet mem (resolvedAddr rb d r) = none := by
    unfold pyGet
    rw [if_neg (by omega), if_neg (by omega)]
  rcases hd with rfl | rfl
  · simp only [resolvedAddr, if_pos] at hgrow hpy ⊢
    rw [resolveOne_pos, hgrow, hpy]
  · simp only [resolvedAddr] at hgrow hpy ⊢
    norm_num at hgrow hpy ⊢
    rw [resolveOne_rel, hgrow, hpy]

/-- When every mode digit is 0, 1 or 2 and every position/relative
effective address is non-negative, the whole resolution loop succeeds:
no memory access fails. -/
theorem resolveParams_total (rb : Int) (regs : List Int) :
    ∀ (m : Int) (mem : List Int),
      (∀ (i : Nat) (ri : Int), regs.get? i = some ri →
        nthDigit m i = 1 ∨
        ((nthDigit m i = 0 ∨ nthDigit m i = 2) ∧
          0 ≤ resolvedAddr rb (nthDigit m i) ri)) →
      ∃ R O M, resolveParams rb m regs mem = some (R, O, M) := by
  induction regs with
  | nil => intro m mem _; exact ⟨[], [], mem, resolveParams_nil rb m mem⟩
  | cons r rest ih =>
    intro m mem hdig
    have hshift : ∀ (i : Nat) (ri : Int), rest.get? i = some ri →
        nthDigit (m / 10) i = 1 ∨
        ((nthDigit (m / 10) i = 0 ∨ nthDigit (m / 10) i = 2) ∧
          0 ≤ resolvedAddr rb (nthDigit (m / 10) i) ri) := by
      intro i ri hri
      rw [nthDigit_shift]
      exact hdig (i + 1) ri hri
    have h0 := hdig 0 r rfl
    rw [nthDigit_zero] at h0
    rcases h0 with h1 | ⟨hd, hnn⟩
    · obtain ⟨R, O, M, hrest⟩ := ih (m / 10) mem hshift
      refine ⟨r :: R, r :: O, M, ?_⟩
      exact resolveParams_cons_eq rb m r rest mem r r mem R O M
        (h1 ▸ resolveOne_imm rb r mem) hrest
    · obtain ⟨v, hone⟩ := resolveOne_addr_success rb (m % 10) r mem hd hnn
      obtain ⟨R, O, M, hrest⟩ := ih (m / 10)
        (growMem (resolvedAddr rb (m % 10) r) mem) hshift
      exact ⟨_ :: R, v :: O, M,
        resolveParams_cons_eq rb m r rest mem _ v _ R O M hone hrest⟩

/-- Every position/relative parameter with a non-negative effective
address ends up, after the whole loop, with its stored register value
equal to an address covered by the final memory, whose cell holds the
operation value that was read for it. -/
theorem resolveParams_addr_spec (rb : Int) (regs : List Int) :
    ∀ (m : Int) (mem R O M : List Int),
      resolveParams rb m regs mem = some (R, O, M) →
      ∀ (i : Nat) (reg : Int), R.get? i = some reg →
        (nthDigit m i = 0 ∨ nthDigit m i = 2) → 0 ≤ reg →
        reg < (M.length : Int) ∧
        ∃ v, O.get? i = some v ∧ pyGet M reg = some v := by
  induction regs with
  | nil =>
    intro m mem R O M h i reg hreg hd hnn
    rw [resolveParams_nil] at h
    simp only [Option.some.injEq, Prod.mk.injEq] at h
    obtain ⟨hR, -, -⟩ := h
    rw [← hR] at hreg
    cases hreg
  | cons r rest ih =>
    intro m mem R O M h i reg hreg hd hnn
    obtain ⟨reg0, v0, mem₁, R', O', h1, h2, rfl, rfl⟩ :=
      resolveParams_cons_inv rb m r rest mem R O M h
    cases i with
    | zero =>
      simp only [List.get?] at hreg
      obtain rfl : reg = reg0 := (Option.some.inj hreg).symm
      rw [nthDigit_zero] at hd
      obtain ⟨haddr, hgrow, hval⟩ := resolveOne_addr_inv rb (m % 10) r mem
        reg v0 mem₁ hd h1
      obtain ⟨ext2, hext2, -⟩ := resolveParams_mem_suffix rb rest (m / 10)
        mem₁ R' O' M h2
      have hcov : reg < (mem₁.length : Int) := by
        rw [hgrow]
        exact growMem_length reg mem hnn
      have hlenM : (mem₁.length : Int) ≤ (M.length : Int) := by
        rw [hext2]
        simp
      refine ⟨by omega, v0, rfl, ?_⟩
      have hb := pyGet_some_bounds mem₁ reg v0 hnn hval
      rw [hext2, pyGet_append_of_lt mem₁ ext2 reg hnn hb.1]
      exact hval
    | succ j =>
      simp only [List.get?] at hreg
      have hd' : nthDigit (m / 10) j = 0 ∨ nthDigit (m / 10) j = 2 := by
        rw [nthDigit_shift]
        exact hd
      have := ih (m / 10) mem₁ R' O' M h2 j reg hreg hd' hnn
      simpa using this

/-- Peeling mode digits off sequentially (`% 10`, `//= 10`) is the same
as giving parameter `i` the digit `m / 10 ^ i % 10` independently. -/
theorem resolveParams_eq_digits (rb : Int) (regs : List Int) :
    ∀ (m : Int) (i : Nat) (mem : List Int),
      resolveParams rb (m / (10 ^ i : Int)) regs mem =
        resolveParamsDigits rb (fun j => nthDigit m j) i regs mem := by
  induction regs with
  | nil => intro m i mem; rfl
  | cons r rest ih =>
    intro m i mem
    simp only [resolveParams, resolveParamsDigits]
    rw [show nthDigit m i = m / (10 ^ i : Int) % 10 from rfl]
    cases h1 : resolveOne rb (m / (10 ^ i : Int) % 10) r mem with
    | none => rfl
    | some trip =>
      obtain ⟨reg, v, mem₁⟩ := trip
      dsimp only
      rw [ediv_ten_pow_succ, ih m (i + 1) mem₁]

/-! ### The claims -/

/-- Claim C9: executing `[1,0,0,0,99]` halts with `memory[0] == 2`, and
executing `[2,3,0,3,99]` halts with `memory[0] == 2` and
`memory[3] == 6` — both on the day2 interpreter (`exec_program` of
day2a.py, whose own asserts state exactly these memories) and on the
day11 machine. -/
theorem c9_small_programs :
    day2Exec 9 [1, 0, 0, 0, 99] = some [2, 0, 0, 0, 99] ∧
    day2Exec 9 [2, 3, 0, 3, 99] = some [2, 3, 0, 6, 99] ∧
    run 9 (initState [1, 0, 0, 0, 99] [] false) =
      .halted ⟨5, [2, 0, 0, 0, 99], 0, [], [], false⟩ 2 ∧
    run 9 (initState [2, 3, 0, 3, 99] [] false) =
      .halted ⟨5, [2, 3, 0, 6, 99], 0, [], [], false⟩ 2 := by
  refine ⟨?_, ?_, ?_, ?_⟩ <;> decide

/-- Claim C2: while resolving position/relative parameters with
non-negative effective addresses, resolution never fails, only appends
zero cells to memory, a growing access extends memory exactly up to and
including the accessed index with zero fill (the newly read cell is 0),
and immediate mode never changes memory. -/
theorem c2_memory_growth (rb m : Int) (regs mem : List Int)
    (hdig : ∀ (i : Nat) (ri : Int), regs.get? i = some ri →
      nthDigit m i = 1 ∨
      ((nthDigit m i = 0 ∨ nthDigit m i = 2) ∧
        0 ≤ resolvedAddr rb (nthDigit m i) ri)) :
    (∃ R O ext, resolveParams rb m regs mem = some (R, O, mem ++ ext) ∧
      ∀ x ∈ ext, x = 0) ∧
    (∀ (r : Int) (mem' : List Int),
      resolveOne rb 1 r mem' = some (r, r, mem')) ∧
    (∀ (d r : Int) (mem' : List Int), (d = 0 ∨ d = 2) →
      (mem'.length : Int) ≤ resolvedAddr rb d r →
      resolveOne rb d r mem' = some (resolvedAddr rb d r, 0,
        mem' ++ List.replicate
          (resolvedAddr rb d r + 1 - (mem'.length : Int)).toNat 0) ∧
      ((mem' ++ List.replicate
          (resolvedAddr rb d r + 1 - (mem'.length : Int)).toNat 0).length : Int) =
        resolvedAddr rb d r + 1) := by
  refine ⟨?_, ?_, ?_⟩
  · obtain ⟨R, O, M, h⟩ := resolveParams_total rb regs m mem hdig
    obtain ⟨ext, hext, hz⟩ := resolveParams_mem_suffix rb regs m mem R O M h
    exact ⟨R, O, ext, by rw [← hext]; exact h, hz⟩
  · intro r mem'
    exact resolveOne_imm rb r mem'
  · intro d r mem' hd hge
    have hnn : 0 ≤ resolvedAddr rb d r :=
      le_trans (Int.natCast_nonneg _) hge
    obtain ⟨hg, hlen⟩ := growMem_grow (resolvedAddr rb d r) mem' hge
    have hv := pyGet_growMem_zero (resolvedAddr rb d r) mem' hge
    obtain ⟨v, hone⟩ := resolveOne_addr_success rb d r mem' hd hnn
    have hv0 : v = 0 := by
      have hthis := (resolveOne_addr_inv rb d r mem' _ v _ hd hone).2.2
      rw [hv] at hthis
      exact (Option.some.inj hthis).symm
    constructor
    · rw [← hg, ← hv0]
      exact hone
    · rw [← hg]
      exact hlen

/-- Claim C2 witness at a concrete input. -/
theorem c2_memory_growth_witness :
    (∃ R O ext, resolveParams 0 0 [3] [] = some (R, O, [] ++ ext) ∧
      ∀ x ∈ ext, x = 0) :=
  (c2_memory_growth 0 0 [3] [] (by
    intro i ri hri
    cases i with
    | zero =>
      obtain rfl : ri = 3 := by
        simpa using hri.symm
      right
      exact ⟨Or.inl (by decide), by decide⟩
    | succ j => simp at hri)).1

/-- Claim C3 as stated is false on the code: a negative resolved
address does not fail fast; here the output instruction `4` with
position-mode parameter `-1` silently reads the last memory cell (99)
and the program halts normally after emitting it. -/
theorem c3_counterexample :
    resolveOne 0 0 (-1) [4, -1, 99] = some (-1, 99, [4, -1, 99]) ∧
    run 3 (initState [4, -1, 99] [] false) =
      .halted ⟨3, [4, -1, 99], 0, [], [99], false⟩ 4 := by
  refine ⟨?_, ?_⟩ <;> decide

/-- Claim C3 (amended): a negative effective address is not rejected;
it is used as a Python negative index.  If it is within `-len .. -1`
the cell `len + addr` is silently read with no fault and no growth;
only below `-len` does the access raise an error (IndexError). -/
theorem c3_negative_address (rb d r : Int) (mem : List Int)
    (hd : d = 0 ∨ d = 2) (hneg : resolvedAddr rb d r < 0) :
    (-(mem.length : Int) ≤ resolvedAddr rb d r →
      ∃ v, mem.get? ((mem.length : Int) + resolvedAddr rb d r).toNat = some v ∧
        resolveOne rb d r mem = some (resolvedAddr rb d r, v, mem)) ∧
    (resolvedAddr rb d r < -(mem.length : Int) →
      resolveOne rb d r mem = none) := by
  constructor
  · intro hin
    exact resolveOne_neg_wrap rb d r mem hd hneg hin
  · intro hout
    exact resolveOne_neg_fail rb d r mem hd hout

/-- Claim C3 witness at a concrete input. -/
theorem c3_negative_address_witness :
    resolvedAddr 0 0 (-1) < 0 ∧
    (∃ v, ([4, -1, 99] : List Int).get?
        ((([4, -1, 99] : List Int).length : Int) + resolvedAddr 0 0 (-1)).toNat =
        some v ∧
      resolveOne 0 0 (-1) [4, -1, 99] = some (resolvedAddr 0 0 (-1), v, [4, -1, 99])) ∧
    resolveOne 0 0 (-9) [4, -1, 99] = none :=
  ⟨by decide,
    (c3_negative_address 0 0 (-1) [4, -1, 99] (Or.inl rfl) (by decide)).1
      (by decide),
    (c3_negative_address 0 0 (-9) [4, -1, 99] (Or.inl rfl) (by decide)).2
      (by decide)⟩

/-- Claim C4 as stated is false on the code: an Add whose destination
parameter is immediate mode (word 10001, third mode digit 1) is not
rejected; the raw value 0 is used as the write address and the program
halts normally. -/
theorem c4_counterexample :
    (10001 : Int) / 100 / 10 ^ 2 % 10 = 1 ∧
    run 2 (initState [10001, 0, 0, 0, 99] [] false) =
      .halted ⟨5, [20002, 0, 0, 0, 99], 0, [], [], false⟩ 20002 := by
  refine ⟨?_, ?_⟩ <;> decide

/-- Claim C4 (amended): for position and relative modes the stored
register value is the effective address (raw value, respectively
`relative_base + raw`); an immediate-mode destination is not rejected —
resolution stores the raw value and `Add.exec` writes through the third
stored register value whatever its mode was. -/
theorem c4_destination_modes :
    (∀ (rb r : Int) (mem : List Int) (reg v : Int) (mem₁ : List Int),
      resolveOne rb 0 r mem = some (reg, v, mem₁) → reg = r) ∧
    (∀ (rb r : Int) (mem : List Int) (reg v : Int) (mem₁ : List Int),
      resolveOne rb 2 r mem = some (reg, v, mem₁) → reg = rb + r) ∧
    (∀ (rb r : Int) (mem : List Int),
      resolveOne rb 1 r mem = some (r, r, mem)) ∧
    (∀ (s : MachineState) (r0 r1 dst x y z : Int),
      execInstr 1 [r0, r1, dst] [x, y, z] s = writeMem dst (x + y) s) := by
  refine ⟨?_, ?_, ?_, ?_⟩
  · intro rb r mem reg v mem₁ h
    have := (resolveOne_addr_inv rb 0 r mem reg v mem₁ (Or.inl rfl) h).1
    rw [this]
    simp [resolvedAddr]
  · intro rb r mem reg v mem₁ h
    have := (resolveOne_addr_inv rb 2 r mem reg v mem₁ (Or.inr rfl) h).1
    rw [this]
    simp [resolvedAddr]
  · intro rb r mem
    exact resolveOne_imm rb r mem
  · intro s r0 r1 dst x y z
    rfl

/-- Claim C4 witness at a concrete input. -/
theorem c4_destination_modes_witness :
    resolveOne 0 0 5 [1, 2, 3, 4, 5, 6] = some (5, 6, [1, 2, 3, 4, 5, 6]) ∧
    (5 : Int) = 5 ∧
    execInstr 1 [0, 0, 0] [10001, 10001, 0]
      (initState [10001, 0, 0, 0, 99] [] false) =
      writeMem 0 (10001 + 10001) (initState [10001, 0, 0, 0, 99] [] false) :=
  ⟨by decide,
    c4_destination_modes.1 0 5 [1, 2, 3, 4, 5, 6] 5 6 [1, 2, 3, 4, 5, 6]
      (by decide),
    c4_destination_modes.2.2.2 (initState [10001, 0, 0, 0, 99] [] false)
      0 0 0 10001 10001 0⟩

/-- Claim C5: the opcode is `word % 100`, the mode field is
`word / 100`, and parameter `i`'s mode digit is
`(word / 100) / 10 ^ i % 10`, each decoded independently. -/
theorem c5_decode (w : Int) (s : MachineState) (n : Nat)
    (regs ops : List Int) (s₂ : MachineState)
    (hw : pyGet s.memory s.pc = some w)
    (hn : paramCount (w % 100) = some n)
    (hrr : readRegisters n (w / 100) { s with pc := s.pc + 1 } =
      some (regs, ops, s₂)) :
    step s = execInstr (w % 100) regs ops s₂ ∧
    ∀ (rb : Int) (rvs mem : List Int),
      resolveParams rb (w / 100) rvs mem =
        resolveParamsDigits rb (fun i => nthDigit (w / 100) i) 0 rvs mem := by
  refine ⟨step_exec s w n regs ops s₂ hw hn hrr, ?_⟩
  intro rb rvs mem
  have hthis := resolveParams_eq_digits rb rvs (w / 100) 0 mem
  rw [show (w / 100) / (10 ^ 0 : Int) = w / 100 by norm_num] at hthis
  exact hthis

/-- Claim C5 witness at a concrete input. -/
theorem c5_decode_witness :
    pyGet [1101, 2, 3, 0, 99] 0 = some 1101 ∧
    paramCount (1101 % 100) = some 3 ∧
    readRegisters 3 (1101 / 100) ⟨1, [1101, 2, 3, 0, 99], 0, [], [], false⟩ =
      some ([2, 3, 0], [2, 3, 1101], ⟨4, [1101, 2, 3, 0, 99], 0, [], [], false⟩) ∧
    step (initState [1101, 2, 3, 0, 99] [] false) =
      execInstr (1101 % 100) [2, 3, 0] [2, 3, 1101]
        ⟨4, [1101, 2, 3, 0, 99], 0, [], [], false⟩ ∧
    resolveParams 7 (1101 / 100) [5] [] =
      resolveParamsDigits 7 (fun i => nthDigit (1101 / 100) i) 0 [5] [] := by
  have hc := c5_decode 1101 (initState [1101, 2, 3, 0, 99] [] false) 3
    [2, 3, 0] [2, 3, 1101] ⟨4, [1101, 2, 3, 0, 99], 0, [], [], false⟩
    (by decide) (by decide) (by decide)
  exact ⟨by decide, by decide, by decide, hc.1, hc.2 7 [5] []⟩

/-- Claim C6: an encoded opcode outside {1,...,9,99} (after % 100) is a
terminal decode fault: no instruction executes, no memory cell is
mutated, the state is unchanged except the program counter has advanced
past the offending word, and the run ends there. -/
theorem c6_unknown_opcode (s : MachineState) (w : Int)
    (hw : pyGet s.memory s.pc = some w)
    (hbad : w % 100 ∉ ([1, 2, 3, 4, 5, 6, 7, 8, 9, 99] : List Int)) :
    step s = .decodeFault { s with pc := s.pc + 1 } w ∧
    ∀ fuel : Nat, run (fuel + 1) s = .decodeFault { s with pc := s.pc + 1 } w := by
  have hpar : paramCount (w % 100) = none := by
    simp only [List.mem_cons, List.not_mem_nil, or_false] at hbad
    push_neg at hbad
    obtain ⟨h1, h2, h3, h4, h5, h6, h7, h8, h9, h99⟩ := hbad
    unfold paramCount
    rw [if_neg h1, if_neg h2, if_neg h3, if_neg h4, if_neg h5, if_neg h6,
      if_neg h7, if_neg h8, if_neg h9, if_neg h99]
  have hstep : step s = .decodeFault { s with pc := s.pc + 1 } w := by
    unfold step
    rw [hw]
    dsimp only
    rw [hpar]
  refine ⟨hstep, ?_⟩
  intro fuel
  rw [run_succ, hstep]

/-- Claim C6 witness at a concrete input. -/
theorem c6_unknown_opcode_witness :
    pyGet [42] 0 = some 42 ∧
    (42 : Int) % 100 ∉ ([1, 2, 3, 4, 5, 6, 7, 8, 9, 99] : List Int) ∧
    step (initState [42] [] false) = .decodeFault ⟨1, [42], 0, [], [], false⟩ 42 ∧
    run 8 (initState [42] [] false) =
      .decodeFault ⟨1, [42], 0, [], [], false⟩ 42 :=
  ⟨by decide, by decide,
    (c6_unknown_opcode (initState [42] [] false) 42 (by decide) (by decide)).1,
    (c6_unknown_opcode (initState [42] [] false) 42 (by decide) (by decide)).2 7⟩

/-- Claim C7: `AdjustRelativeBase` with operand `k` adds `k` to the
relative base, and a relative-mode parameter with raw value `r`
resolved against the new base yields the effective address
`base_before + k + r`. -/
theorem c7_relative_base_adjust (s : MachineState) (k r : Int)
    (regs restOps : List Int) :
    execInstr 9 regs (k :: restOps) s =
      .ok { s with relativeBase := s.relativeBase + k } ∧
    (∀ (mem : List Int) (reg v : Int) (mem₁ : List Int),
      resolveOne (s.relativeBase + k) 2 r mem = some (reg, v, mem₁) →
      reg = s.relativeBase + k + r) ∧
    (0 ≤ s.relativeBase + k + r → ∀ mem : List Int,
      ∃ v mem₁, resolveOne (s.relativeBase + k) 2 r mem =
        some (s.relativeBase + k + r, v, mem₁)) := by
  refine ⟨?_, ?_, ?_⟩
  · rw [execInstr_op9]
    rfl
  · intro mem reg v mem₁ h
    have hthis := (resolveOne_addr_inv (s.relativeBase + k) 2 r mem reg v mem₁
      (Or.inr rfl) h).1
    rw [hthis]
    simp [resolvedAddr]
  · intro hnn mem
    have hnn' : 0 ≤ resolvedAddr (s.relativeBase + k) 2 r := by
      simp only [resolvedAddr]
      norm_num
      exact hnn
    obtain ⟨v, hv⟩ := resolveOne_addr_success (s.relativeBase + k) 2 r mem
      (Or.inr rfl) hnn'
    exact ⟨v, growMem (resolvedAddr (s.relativeBase + k) 2 r) mem, hv⟩

/-- Claim C7 witness at a concrete input. -/
theorem c7_relative_base_adjust_witness :
    execInstr 9 [] [5] (initState [109, 5, 99] [] false) =
      .ok ⟨0, [109, 5, 99], 0 + 5, [], [], false⟩ ∧
    (0 : Int) ≤ 0 + 5 + 2 ∧
    (∃ v mem₁, resolveOne (0 + 5) 2 2 [109, 5, 99] =
      some (0 + 5 + 2, v, mem₁)) :=
  ⟨(c7_relative_base_adjust (initState [109, 5, 99] [] false) 5 2 [] []).1,
    by decide,
    (c7_relative_base_adjust (initState [109, 5, 99] [] false) 5 2 [] []).2.2
      (by decide) [109, 5, 99]⟩

/-- Claim C8: with the pause-after-every-output policy enabled and the
machine resumed after each pause, the run is lock-step equal (modulo
the policy flag recorded in the state) to the run with pausing
disabled; in particular the ordered output sequences coincide. -/
theorem c8_output_pause_roundtrip (s : MachineState) (fuel : Nat) :
    mapResultState (setYield false) (runThroughYields fuel (setYield true s)) =
      run fuel (setYield false s) ∧
    resultOutputs (runThroughYields fuel (setYield true s)) =
      resultOutputs (run fuel (setYield false s)) := by
  have h1 := runThroughYields_eq_run fuel (setYield true s)
  have h2 : setYield false (setYield true s) = setYield false s := rfl
  rw [h2] at h1
  refine ⟨h1, ?_⟩
  rw [← h1]
  cases runThroughYields fuel (setYield true s) <;> rfl

/-- Claim C10: a destination parameter in position or relative mode
resolving to a non-negative address is dereferenced during operand
resolution (its cell value is the recorded operation value), so after
resolution the final memory covers the address and the write performed
by the instruction body always succeeds in bounds. -/
theorem c10_destination_write_safe (rb m : Int)
    (regs mem R O M : List Int)
    (h : resolveParams rb m regs mem = some (R, O, M))
    (i : Nat) (reg : Int) (hreg : R.get? i = some reg)
    (hd : nthDigit m i = 0 ∨ nthDigit m i = 2) (hnn : 0 ≤ reg) :
    reg < (M.length : Int) ∧
    (∃ v, O.get? i = some v ∧ pyGet M reg = some v) ∧
    ∀ w : Int, pySet M reg w = some (M.set reg.toNat w) := by
  obtain ⟨h1, h2⟩ := resolveParams_addr_spec rb regs m mem R O M h i reg hreg hd hnn
  refine ⟨h1, h2, ?_⟩
  intro w
  exact pySet_in_range M reg w hnn h1

/-- Claim C10 witness at a concrete input. -/
theorem c10_destination_write_safe_witness :
    resolveParams 0 0 [3] [] = some ([3], [0], [0, 0, 0, 0]) ∧
    ([3] : List Int).get? 0 = some 3 ∧
    (3 : Int) < (([0, 0, 0, 0] : List Int).length : Int) ∧
    (∃ v, ([0] : List Int).get? 0 = some v ∧ pyGet [0, 0, 0, 0] 3 = some v) ∧
    ∀ w : Int, pySet [0, 0, 0, 0] 3 w = some ([0, 0, 0, 0].set (3 : Int).toNat w) := by
  have hc := c10_destination_write_safe 0 0 [3] [] [3] [0] [0, 0, 0, 0]
    (by decide) 0 3 (by decide) (Or.inl (by decide)) (by decide)
  exact ⟨by decide, by decide, hc.1, hc.2.1, hc.2.2⟩

/-- Claim C1 (amended: the suspension must occur at a non-negative
program counter — see `c1_counterexample` for the negative-pc failure):
when a run suspends waiting for input, the rewound program counter
re-fetches an Input word (opcode 3 after % 100), and resuming the
suspended machine with an input queue produces a final halted state
(memory, program counter, relative base, outputs) if and only if the
machine at the suspension point, with its queue extended by those same
values, halts with that exact state. -/
theorem c1_suspend_resume (fuel : Nat) (s s' : MachineState)
    (h : run fuel s = .waitingForInput s') (hpc : 0 ≤ s'.pc) :
    (∃ w, pyGet s'.memory s'.pc = some w ∧ w % 100 = 3) ∧
    ∀ (ins : List Int) (H : MachineState) (e : Int),
      (∃ f, run f { s' with inputStream := ins } = .halted H e) ↔
      (∃ f, run f (appendInput ins s) = .halted H e) := by
  constructor
  · obtain ⟨t, ht⟩ := run_waiting_last fuel s s' h
    obtain ⟨w, regs, ops, M, hw, hop3, hres, -, rfl⟩ := step_waiting_inv t s' ht
    have hpc' : 0 ≤ t.pc := hpc
    have hb := pyGet_some_bounds t.memory t.pc w hpc' hw
    obtain ⟨ext, hM, -⟩ := resolveParams_mem_suffix t.relativeBase _ _ _ _ _ _ hres
    refine ⟨w, ?_, hop3⟩
    show pyGet M t.pc = some w
    rw [hM, pyGet_append_of_lt t.memory ext t.pc hpc' hb.1]
    exact hw
  · intro ins H e
    obtain ⟨k, hk, hsim⟩ := run_waiting_sim fuel s s' h hpc ins
    constructor
    · rintro ⟨f, hf⟩
      cases f with
      | zero => rw [run_zero] at hf; cases hf
      | succ f' =>
        refine ⟨k + (f' + 1), ?_⟩
        rw [hsim (f' + 1) (by omega)]
        exact hf
    · rintro ⟨f, hf⟩
      refine ⟨f + 1, ?_⟩
      have hm := hsim (f + 1) (by omega)
      have hmono := run_terminal_mono f (appendInput ins s) (.halted H e) hf
        (fun t ht => ExecResult.noConfusion ht) (k + 1)
      rw [show k + (f + 1) = f + (k + 1) by omega, hmono] at hm
      exact hm.symm

/-- Claim C1 witness at a concrete input: program `[3,0,4,0,99]` with
no input suspends immediately; resuming with input 7 is equivalent to
having had it queued from the start, both halting after echoing 7. -/
theorem c1_suspend_resume_witness :
    run 1 (initState [3, 0, 4, 0, 99] [] false) =
      .waitingForInput ⟨0, [3, 0, 4, 0, 99], 0, [], [], false⟩ ∧
    (0 : Int) ≤ (⟨0, [3, 0, 4, 0, 99], 0, [], [], false⟩ : MachineState).pc ∧
    (∃ w, pyGet [3, 0, 4, 0, 99] 0 = some w ∧ w % 100 = 3) ∧
    ((∃ f, run f { (⟨0, [3, 0, 4, 0, 99], 0, [], [], false⟩ : MachineState) with
        inputStream := [7] } = .halted ⟨5, [7, 0, 4, 0, 99], 0, [], [7], false⟩ 7) ↔
     (∃ f, run f (appendInput [7] (initState [3, 0, 4, 0, 99] [] false)) =
        .halted ⟨5, [7, 0, 4, 0, 99], 0, [], [7], false⟩ 7)) := by
  have h1 : run 1 (initState [3, 0, 4, 0, 99] [] false) =
      .waitingForInput ⟨0, [3, 0, 4, 0, 99], 0, [], [], false⟩ := by decide
  have h2 : (0 : Int) ≤
      (⟨0, [3, 0, 4, 0, 99], 0, [], [], false⟩ : MachineState).pc := by decide
  have hc := c1_suspend_resume 1 (initState [3, 0, 4, 0, 99] [] false)
    ⟨0, [3, 0, 4, 0, 99], 0, [], [], false⟩ h1 h2
  exact ⟨h1, h2, hc.1, hc.2 [7] ⟨5, [7, 0, 4, 0, 99], 0, [], [7], false⟩ 7⟩

/-- Claim C1 as stated (for every program) is false on the code: the
program `[1105,1,-5,0,3,9,0,99,0]` jumps to the negative program
counter -5; Python's negative indexing makes the fetch wrap around, an
Input instruction is found whose parameter resolution grows memory by
one zero cell, and the queue is empty so the machine suspends with the
program counter rewound to -5.  Because memory grew, the wrapped fetch
at -5 now denotes a different cell on resume: the resumed run halts
with relative base 1105 and memory[9] = 0, while the uninterrupted run
with input 7 available from the start halts with relative base 0 and
memory[9] = 7 — two different final halted states. -/
theorem c1_counterexample :
    run 2 (initState [1105, 1, -5, 0, 3, 9, 0, 99, 0] [] false) =
      .waitingForInput
        ⟨-5, [1105, 1, -5, 0, 3, 9, 0, 99, 0, 0], 0, [], [], false⟩ ∧
    run 2 { (⟨-5, [1105, 1, -5, 0, 3, 9, 0, 99, 0, 0], 0, [], [], false⟩ :
        MachineState) with inputStream := [7] } =
      .halted ⟨-2, [1105, 1, -5, 0, 3, 9, 0, 99, 0, 0], 1105, [7], [], false⟩ 1105 ∧
    run 3 (initState [1105, 1, -5, 0, 3, 9, 0, 99, 0] [7] false) =
      .halted ⟨-2, [1105, 1, -5, 0, 3, 9, 0, 99, 0, 7], 0, [], [], false⟩ 1105 ∧
    (⟨-2, [1105, 1, -5, 0, 3, 9, 0, 99, 0, 0], 1105, [7], [], false⟩ :
        MachineState) ≠
      ⟨-2, [1105, 1, -5, 0, 3, 9, 0, 99, 0, 7], 0, [], [], false⟩ := by
  refine ⟨?_, ?_, ?_, ?_⟩ <;> decide
